import Mathlib

/-!
Verification of the incremental synchronization core of the Jordan sales
scraper repository.  The definitions below are a shallow embedding of the
Python source:

* `fetch_all_data_for_query_optimized` (src/main.py) — full reconciliation
  fetcher, embedded as `fetchAllLoop` / `fetchAllData`;
* `fetch_new_data_for_query_optimized` (src/update_daily.py) — daily
  incremental fetcher with per-item existence checks, embedded as
  `scanHitsDaily`, `fetchNewLoop`, `fetchNewData`;
* `check_if_item_exists_in_db` (src/update_daily.py) — `checkIfItemExists`;
* `MongoDBHandler.insert_data_batch` (src/utils.py) — `mongoInsertLoop`;
* `SQLDBHandler.insert_data_batch` (src/utils.py) — `sqlInsertLoop`;
* the per-query statistics update of `process_single_query_optimized`
  (src/main.py) — `queryContrib` / `applyContrib`.

Modelling conventions.  The remote feed is a single reverse-chronological
list of hits; page `p` of the API response is the slice
`(feed.drop (50 * p)).take 50` and `totalHits` is `feed.length`, matching a
well-formed paged response for a feed that does not change during the walk.
Python strings are Lean `String`s; JSON values that may be `null` are
`JVal`.  A MongoDB count failure (the function returning `-1`) is the
`none` case of the `Option Nat` count argument.  A store that may be
unreachable is an oracle `String → Except Unit Bool`, the `.error` case
standing for the pymongo call raising.  The page loops take explicit fuel;
their termination with the fuel supplied by the top-level entry points is
proved, so the `getD` fallback never fires.  Each fetcher additionally
returns the list of page indices it requested, mirroring the sequence of
HTTP GETs the Python loop issues; the Python caller only sees the first
component.
-/

/-- A JSON field value that is either `null` or a string, as found in the
`cardId` field of a raw hit. -/
inductive JVal where
  | null : JVal
  | str : String → JVal
deriving DecidableEq

/-- One raw hit of the remote search API.  `itemId`/`cardId`/`date` are
`none` when the corresponding key is absent from the JSON object; `payload`
abstracts the remaining domain fields (price, seller, ...). -/
structure Hit where
  itemId : Option String
  cardId : Option JVal
  date : Option String
  payload : Nat
deriving DecidableEq

/-- Splitting a character list at every occurrence of `sep`, as Python
`str.split` does: the result is never empty and concatenating it with the
separator restores the input. -/
def splitOnChar (sep : Char) : List Char → List (List Char)
  | [] => [[]]
  | c :: rest =>
    match splitOnChar sep rest with
    | [] => [[]]
    | h :: t => if c = sep then [] :: h :: t else (c :: h) :: t

/-- `s.split("T")[0]` from the Python source: the part of `s` before the
first `'T'`. -/
def pySplitHeadT (s : String) : String :=
  String.mk ((splitOnChar 'T' s.data).headD [])

/-- The derived `Verified` flag: `"cardId" in hit and hit["cardId"] != ""
and hit["cardId"] is not None` (src/main.py lines 216-219, src/update_daily.py
lines 171-174). -/
def hitVerified (h : Hit) : Bool :=
  match h.cardId with
  | some v => decide (v ≠ JVal.str "") && decide (v ≠ JVal.null)
  | none => false

/-- The derived `date_normal` field: set to `hit["date"].split("T")[0]`
when the `date` key is present (src/main.py line 221). -/
def hitDateNormal (h : Hit) : Option String :=
  h.date.map pySplitHeadT

/-- A hit after the in-loop normalization: the original hit plus the
metadata keys the loops add to the dict (`search_url`, `search_query`,
`Verified`, `date_normal`).  `searchQuery` is `none` for the daily-update
variant, which does not set that key. -/
structure Canon where
  hit : Hit
  searchUrl : String
  searchQuery : Option String
  verified : Bool
  dateNormal : Option String
deriving DecidableEq

/-- The identity key of a canonical record is the `itemId` of the
underlying hit (the dict is mutated in place, so the key is unchanged). -/
def Canon.itemId (c : Canon) : Option String :=
  c.hit.itemId

/-- The search URL built for a page: page 0 omits the `page` parameter
(src/main.py lines 186-190). -/
def urlFor (query : String) (page : Nat) : String :=
  if page = 0 then
    "https://search-zzvl7ri3bq-uc.a.run.app/search?index=salesarchive&query="
      ++ query ++ "&limit=50&filters=&sort=date&direction=desc"
  else
    "https://search-zzvl7ri3bq-uc.a.run.app/search?index=salesarchive&query="
      ++ query ++ "&page=" ++ toString page
      ++ "&limit=50&filters=&sort=date&direction=desc"

/-- Normalization as performed by `fetch_new_data_for_query_optimized`
(src/update_daily.py lines 168-176): adds `search_url`, `Verified` and
`date_normal` to the hit. -/
def normalizeDaily (url : String) (h : Hit) : Canon :=
  { hit := h
    searchUrl := url
    searchQuery := none
    verified := hitVerified h
    dateNormal := hitDateNormal h }

/-- Normalization as performed by `fetch_all_data_for_query_optimized`
(src/main.py lines 213-222): additionally records `search_query`. -/
def normalizeMain (url : String) (query : String) (h : Hit) : Canon :=
  { hit := h
    searchUrl := url
    searchQuery := some query
    verified := hitVerified h
    dateNormal := hitDateNormal h }

/-- `check_if_item_exists_in_db` (src/update_daily.py lines 90-115): ask
the store whether the item exists; if the lookup raises, return `False`. -/
def checkIfItemExists (oracle : String → Except Unit Bool) (itemId : String) : Bool :=
  match oracle itemId with
  | Except.ok b => b
  | Except.error _ => false

/-- The stopping test of the daily walk (src/update_daily.py lines
179-183): the hit has a truthy `itemId` and the existence check reports
it as already present. -/
def hitFoundExisting (oracle : String → Except Unit Bool) (h : Hit) : Bool :=
  match h.itemId with
  | some id => decide (id ≠ "") && checkIfItemExists oracle id
  | none => false

/-- Page `p` of the remote feed: `limit = 50` records sorted newest
first. -/
def pageHits (feed : List Hit) (page : Nat) : List Hit :=
  (feed.drop (50 * page)).take 50

/-- `math.ceil(total_hits / limit)` with `limit = 50`. -/
def totalPagesOf (totalHits : Nat) : Nat :=
  (totalHits + 49) / 50

/-- The inner `for hit in hits` loop of the daily fetcher (src/update_daily.py
lines 168-186): normalize each hit in order; on the first hit found to
already exist, stop and report `found_existing` without adding it. -/
def scanHitsDaily (oracle : String → Except Unit Bool) (url : String) :
    List Hit → List Canon × Bool
  | [] => ([], false)
  | h :: t =>
    if hitFoundExisting oracle h then ([], true)
    else
      let r := scanHitsDaily oracle url t
      (normalizeDaily url h :: r.1, r.2)

/-- The paging loop of `fetch_new_data_for_query_optimized`
(src/update_daily.py lines 140-212), with explicit fuel.  Returns the
accumulated new records together with the page indices requested; `none`
means the fuel ran out (shown below to be impossible for the fuel used by
`fetchNewData`). -/
def fetchNewLoop (q : String) (oracle : String → Except Unit Bool)
    (feed : List Hit) (dbCount : Nat) :
    Nat → Nat → List Canon → List Nat → Option (List Canon × List Nat)
  | 0, _, _, _ => none
  | fuel + 1, page, acc, reqs =>
    let url := urlFor q page
    let hits := pageHits feed page
    let reqs' := reqs ++ [page]
    if page = 0 ∧ feed.length ≤ dbCount then some ([], reqs')
    else if hits.isEmpty then some (acc, reqs')
    else
      let sc := scanHitsDaily oracle url hits
      let acc' := acc ++ sc.1
      if sc.2 then some (acc', reqs')
      else if hits.length < 50 then some (acc', reqs')
      else if totalPagesOf feed.length ≤ page then some (acc', reqs')
      else fetchNewLoop q oracle feed dbCount fuel (page + 1) acc' reqs'

/-- `fetch_new_data_for_query_optimized` (src/update_daily.py lines
117-212).  A count error (`db_count == -1`, the `none` case) returns the
empty list without any page request. -/
def fetchNewData (q : String) (oracle : String → Except Unit Bool)
    (feed : List Hit) (dbCountOpt : Option Nat) : List Canon × List Nat :=
  match dbCountOpt with
  | none => ([], [])
  | some c =>
    (fetchNewLoop q oracle feed c (totalPagesOf feed.length + 1 + 1) 0 [] []).getD ([], [])

/-- The paging loop of `fetch_all_data_for_query_optimized` (src/main.py
lines 184-251): identical shape, but every hit of a page is appended
unconditionally (no per-item existence check, `found_existing` is never
set). -/
def fetchAllLoop (q : String) (feed : List Hit) (dbCount : Nat) :
    Nat → Nat → List Canon → List Nat → Option (List Canon × List Nat)
  | 0, _, _, _ => none
  | fuel + 1, page, acc, reqs =>
    let url := urlFor q page
    let hits := pageHits feed page
    let reqs' := reqs ++ [page]
    if page = 0 ∧ feed.length ≤ dbCount then some ([], reqs')
    else if hits.isEmpty then some (acc, reqs')
    else
      let acc' := acc ++ hits.map (normalizeMain url q)
      if hits.length < 50 then some (acc', reqs')
      else if totalPagesOf feed.length ≤ page then some (acc', reqs')
      else fetchAllLoop q feed dbCount fuel (page + 1) acc' reqs'

/-- `fetch_all_data_for_query_optimized` (src/main.py lines 161-252). -/
def fetchAllData (q : String) (feed : List Hit) (dbCountOpt : Option Nat) :
    List Canon × List Nat :=
  match dbCountOpt with
  | none => ([], [])
  | some c =>
    (fetchAllLoop q feed c (totalPagesOf feed.length + 1 + 1) 0 [] []).getD ([], [])

/-- The `{inserted, duplicates, errors}` triple returned by
`insert_data_batch`. -/
structure InsertResult where
  inserted : Nat
  duplicates : Nat
  errors : Nat
deriving DecidableEq

instance : Add InsertResult :=
  ⟨fun a b => ⟨a.inserted + b.inserted, a.duplicates + b.duplicates, a.errors + b.errors⟩⟩

/-- Whether the store already holds a record with the given `itemId`
(the unique index created in `MongoDBHandler.connect`, src/utils.py line
175, makes this the duplicate-key test). -/
def storeHasId (store : List Canon) (id : String) : Bool :=
  store.any (fun c => c.hit.itemId == some id)

/-- The `for item in data_list` loop of `MongoDBHandler.insert_data_batch`
(src/utils.py lines 202-214): items without an `itemId` key count as
errors; `insert_one` raises `DuplicateKeyError` when the unique index on
`itemId` already holds the key, which is counted as a duplicate; any other
exception of the attempt (modelled by the `exc` predicate) is counted as an
error; a successful insert appends the record. -/
def mongoInsertLoop (exc : Canon → Bool) :
    List Canon → List Canon → InsertResult → List Canon × InsertResult
  | store, [], acc => (store, acc)
  | store, c :: t, acc =>
    match c.hit.itemId with
    | some id =>
      if storeHasId store id then
        mongoInsertLoop exc store t
          { acc with duplicates := acc.duplicates + 1 }
      else if exc c then
        mongoInsertLoop exc store t { acc with errors := acc.errors + 1 }
      else
        mongoInsertLoop exc (store ++ [c]) t
          { acc with inserted := acc.inserted + 1 }
    | none => mongoInsertLoop exc store t { acc with errors := acc.errors + 1 }

/-- `MongoDBHandler.insert_data_batch` (src/utils.py lines 185-222). -/
def mongoInsertBatch (exc : Canon → Bool) (store : List Canon)
    (data : List Canon) : List Canon × InsertResult :=
  mongoInsertLoop exc store data ⟨0, 0, 0⟩

/-- The per-item loop of `SQLDBHandler.insert_data_batch` (src/utils.py
lines 520-553): items whose `itemId` is absent or empty count as errors; a
`MySQLError` of the individual `INSERT IGNORE` (modelled by `exc`) counts
as an error; otherwise `INSERT IGNORE` silently skips an existing key
(`rowcount == 0`), counted as a duplicate, or inserts the row. -/
def sqlInsertLoop (exc : Canon → Bool) :
    List Canon → List Canon → InsertResult → List Canon × InsertResult
  | store, [], acc => (store, acc)
  | store, c :: t, acc =>
    match c.hit.itemId with
    | some id =>
      if id = "" then sqlInsertLoop exc store t { acc with errors := acc.errors + 1 }
      else if exc c then sqlInsertLoop exc store t { acc with errors := acc.errors + 1 }
      else if storeHasId store id then
        sqlInsertLoop exc store t { acc with duplicates := acc.duplicates + 1 }
      else
        sqlInsertLoop exc (store ++ [c]) t
          { acc with inserted := acc.inserted + 1 }
    | none => sqlInsertLoop exc store t { acc with errors := acc.errors + 1 }

/-- `SQLDBHandler.insert_data_batch` (src/utils.py lines 497-576),
restricted to the per-record path (the batch-level commit failure is out
of scope). -/
def sqlInsertBatch (exc : Canon → Bool) (store : List Canon)
    (data : List Canon) : List Canon × InsertResult :=
  sqlInsertLoop exc store data ⟨0, 0, 0⟩

/-- The record a given `itemId` resolves to in the store, if any. -/
def findById (store : List Canon) (id : String) : Option Canon :=
  store.find? (fun c => c.hit.itemId == some id)

/-- The store invariant of §3: no two persisted records share an
`itemId`. -/
def storeUnique (store : List Canon) : Prop :=
  (store.filterMap (fun c => c.hit.itemId)).Nodup

instance (store : List Canon) : Decidable (storeUnique store) := by
  unfold storeUnique
  infer_instance

/-- A sequence of runs, each persisting one batch through
`insert_data_batch`. -/
def applyRuns (exc : Canon → Bool) (store : List Canon)
    (runs : List (List Canon)) : List Canon :=
  runs.foldl (fun s l => (mongoInsertBatch exc s l).1) store

/-- The aggregate statistics counters shared by the worker threads of one
batch (`batch_results` in `process_queries_batch_optimized`,
src/main.py lines 365-371). -/
structure BatchStats where
  queriesProcessed : Nat
  totalRecords : Nat
  totalInserted : Nat
  totalDuplicates : Nat
  totalErrors : Nat
deriving DecidableEq

/-- One locked read-modify-write of the shared counters: the body of the
`with stats_lock` block (src/main.py lines 389-394), applied to the delta
contributed by one task. -/
def applyContrib (s d : BatchStats) : BatchStats :=
  ⟨s.queriesProcessed + d.queriesProcessed,
   s.totalRecords + d.totalRecords,
   s.totalInserted + d.totalInserted,
   s.totalDuplicates + d.totalDuplicates,
   s.totalErrors + d.totalErrors⟩

/-- The statistics delta of one query task in
`process_single_query_optimized` (src/main.py lines 377-398): a query
whose fetch returned no data contributes nothing (the `if query_data`
guard); otherwise the task adds one processed query, the record count and
the insert triple. -/
def queryContrib (res : List Canon) (r : InsertResult) : BatchStats :=
  if res.isEmpty then ⟨0, 0, 0, 0, 0⟩
  else ⟨1, res.length, r.inserted, r.duplicates, r.errors⟩

/-- The outcome of one fetch-then-insert cycle for a query. -/
structure RunOutcome where
  fetched : List Canon
  result : InsertResult
  store : List Canon
deriving DecidableEq

/-- One full cycle of `process_single_query_optimized` against the MongoDB
store: fetch with the count read from the current store, then persist via
`save_data_to_mongodb` (which is `insert_data_batch`); an empty fetch
result skips the insert call (src/main.py lines 385-387). -/
def mongoRunOnce (q : String) (cnt : List Canon → Option Nat)
    (feed : List Hit) (S : List Canon) : RunOutcome :=
  let res := (fetchAllData q feed (cnt S)).1
  if res.isEmpty then ⟨res, ⟨0, 0, 0⟩, S⟩
  else
    let out := mongoInsertBatch (fun _ => false) S res
    ⟨res, out.2, out.1⟩

/-! ### Basic facts about normalization and page slicing -/

@[simp]
lemma normalizeDaily_hit (url : String) (h : Hit) :
    (normalizeDaily url h).hit = h := rfl

@[simp]
lemma normalizeMain_hit (url q : String) (h : Hit) :
    (normalizeMain url q h).hit = h := rfl

lemma map_hit_map_normalizeDaily (url : String) (l : List Hit) :
    (l.map (normalizeDaily url)).map (fun c => c.hit) = l := by
  induction l with
  | nil => rfl
  | cons h t ih => simp [ih]

lemma map_hit_map_normalizeMain (url q : String) (l : List Hit) :
    (l.map (normalizeMain url q)).map (fun c => c.hit) = l := by
  induction l with
  | nil => rfl
  | cons h t ih => simp [ih]

/-- If the hits of a page all fail the stopping test, the daily page scan
keeps them all, in order, and reports no boundary. -/
lemma scanHitsDaily_no_stop (oracle : String → Except Unit Bool) (url : String) :
    ∀ l : List Hit, (∀ h ∈ l, hitFoundExisting oracle h = false) →
      scanHitsDaily oracle url l = (l.map (normalizeDaily url), false) := by
  intro l
  induction l with
  | nil => intro _; rfl
  | cons h t ih =>
    intro hall
    have hh : hitFoundExisting oracle h = false := hall h (by simp)
    have ht := ih (fun x hx => hall x (by simp [hx]))
    simp [scanHitsDaily, hh, ht]

/-- If the page consists of fresh hits followed by a hit the oracle knows,
the daily page scan returns exactly the fresh prefix and reports the
boundary. -/
lemma scanHitsDaily_stop (oracle : String → Except Unit Bool) (url : String) :
    ∀ (pre : List Hit) (x : Hit) (post : List Hit),
      (∀ h ∈ pre, hitFoundExisting oracle h = false) →
      hitFoundExisting oracle x = true →
      scanHitsDaily oracle url (pre ++ x :: post) = (pre.map (normalizeDaily url), true) := by
  intro pre
  induction pre with
  | nil => intro x post _ hx; simp [scanHitsDaily, hx]
  | cons h t ih =>
    intro x post hall hx
    have hh : hitFoundExisting oracle h = false := hall h (by simp)
    have ht := ih x post (fun y hy => hall y (by simp [hy])) hx
    simp [scanHitsDaily, hh, ht]

/-! ### The count gate (early exit on page 0) -/

/-- When the stored count reaches the remote total, the daily fetcher
requests only page 0 and returns the empty list. -/
lemma fetchNewData_gate (q : String) (oracle : String → Except Unit Bool)
    (feed : List Hit) (c : Nat) (hc : feed.length ≤ c) :
    fetchNewData q oracle feed (some c) = ([], [0]) := by
  simp [fetchNewData, fetchNewLoop, hc]

/-- The same early exit for the full-reconciliation fetcher. -/
lemma fetchAllData_gate (q : String) (feed : List Hit) (c : Nat)
    (hc : feed.length ≤ c) :
    fetchAllData q feed (some c) = ([], [0]) := by
  simp [fetchAllData, fetchAllLoop, hc]

/-! ### Termination of the paging loops -/

lemma fetchNewLoop_isSome (q : String) (oracle : String → Except Unit Bool)
    (feed : List Hit) (c : Nat) :
    ∀ fuel page acc reqs, page ≤ totalPagesOf feed.length →
      totalPagesOf feed.length + 1 + 1 ≤ fuel + page →
      (fetchNewLoop q oracle feed c fuel page acc reqs).isSome := by
  intro fuel
  induction fuel with
  | zero => intro page acc reqs h1 h2; omega
  | succ f ih =>
    intro page acc reqs h1 h2
    simp only [fetchNewLoop]
    split
    · simp
    · split
      · simp
      · split
        · simp
        · split
          · simp
          · split
            · simp
            · rename_i hTP
              have hlt : page < totalPagesOf feed.length := by
                by_contra hge
                exact hTP (by omega)
              exact ih (page + 1) _ _ (by omega) (by omega)

lemma fetchAllLoop_isSome (q : String) (feed : List Hit) (c : Nat) :
    ∀ fuel page acc reqs, page ≤ totalPagesOf feed.length →
      totalPagesOf feed.length + 1 + 1 ≤ fuel + page →
      (fetchAllLoop q feed c fuel page acc reqs).isSome := by
  intro fuel
  induction fuel with
  | zero => intro page acc reqs h1 h2; omega
  | succ f ih =>
    intro page acc reqs h1 h2
    simp only [fetchAllLoop]
    split
    · simp
    · split
      · simp
      · split
        · simp
        · split
          · simp
          · rename_i hTP
            have hlt : page < totalPagesOf feed.length := by
              by_contra hge
              exact hTP (by omega)
            exact ih (page + 1) _ _ (by omega) (by omega)

/-! ### Bound on the requested page indices -/

lemma fetchNewLoop_reqs_le (q : String) (oracle : String → Except Unit Bool)
    (feed : List Hit) (c : Nat) :
    ∀ fuel page acc reqs res rq,
      page ≤ totalPagesOf feed.length →
      (∀ p ∈ reqs, p ≤ totalPagesOf feed.length) →
      fetchNewLoop q oracle feed c fuel page acc reqs = some (res, rq) →
      ∀ p ∈ rq, p ≤ totalPagesOf feed.length := by
  intro fuel
  induction fuel with
  | zero => intro page acc reqs res rq _ _ h; simp [fetchNewLoop] at h
  | succ f ih =>
    intro page acc reqs res rq hpage hreqs h
    simp only [fetchNewLoop] at h
    have hstep : ∀ p ∈ reqs ++ [page], p ≤ totalPagesOf feed.length := by
      intro p hp
      rcases List.mem_append.1 hp with h' | h'
      · exact hreqs p h'
      · simp at h'; omega
    split at h
    · simp only [Option.some.injEq, Prod.mk.injEq] at h
      exact h.2 ▸ hstep
    · split at h
      · simp only [Option.some.injEq, Prod.mk.injEq] at h
        exact h.2 ▸ hstep
      · split at h
        · simp only [Option.some.injEq, Prod.mk.injEq] at h
          exact h.2 ▸ hstep
        · split at h
          · simp only [Option.some.injEq, Prod.mk.injEq] at h
            exact h.2 ▸ hstep
          · split at h
            · simp only [Option.some.injEq, Prod.mk.injEq] at h
              exact h.2 ▸ hstep
            · rename_i hTP
              have hlt : page < totalPagesOf feed.length := by
                by_contra hge
                exact hTP (by omega)
              exact ih (page + 1) _ _ _ _ (by omega) hstep h

lemma fetchAllLoop_reqs_le (q : String) (feed : List Hit) (c : Nat) :
    ∀ fuel page acc reqs res rq,
      page ≤ totalPagesOf feed.length →
      (∀ p ∈ reqs, p ≤ totalPagesOf feed.length) →
      fetchAllLoop q feed c fuel page acc reqs = some (res, rq) →
      ∀ p ∈ rq, p ≤ totalPagesOf feed.length := by
  intro fuel
  induction fuel with
  | zero => intro page acc reqs res rq _ _ h; simp [fetchAllLoop] at h
  | succ f ih =>
    intro page acc reqs res rq hpage hreqs h
    simp only [fetchAllLoop] at h
    have hstep : ∀ p ∈ reqs ++ [page], p ≤ totalPagesOf feed.length := by
      intro p hp
      rcases List.mem_append.1 hp with h' | h'
      · exact hreqs p h'
      · simp at h'; omega
    split at h
    · simp only [Option.some.injEq, Prod.mk.injEq] at h
      exact h.2 ▸ hstep
    · split at h
      · simp only [Option.some.injEq, Prod.mk.injEq] at h
        exact h.2 ▸ hstep
      · split at h
        · simp only [Option.some.injEq, Prod.mk.injEq] at h
          exact h.2 ▸ hstep
        · split at h
          · simp only [Option.some.injEq, Prod.mk.injEq] at h
            exact h.2 ▸ hstep
          · rename_i hTP
            have hlt : page < totalPagesOf feed.length := by
              by_contra hge
              exact hTP (by omega)
            exact ih (page + 1) _ _ _ _ (by omega) hstep h

/-- Every page the daily fetcher requests has index at most
`ceil(total_hits / 50)`. -/
lemma fetchNewData_reqs_le (q : String) (oracle : String → Except Unit Bool)
    (feed : List Hit) (cnt : Option Nat) :
    ∀ p ∈ (fetchNewData q oracle feed cnt).2, p ≤ totalPagesOf feed.length := by
  cases cnt with
  | none => simp [fetchNewData]
  | some c =>
    have hs := fetchNewLoop_isSome q oracle feed c
      (totalPagesOf feed.length + 1 + 1) 0 [] [] (by omega) (by omega)
    obtain ⟨⟨res, rq⟩, hres⟩ := Option.isSome_iff_exists.1 hs
    have : fetchNewData q oracle feed (some c) = (res, rq) := by
      simp [fetchNewData, hres]
    rw [this]
    exact fetchNewLoop_reqs_le q oracle feed c _ 0 [] [] res rq (by omega)
      (by simp) hres

/-- Every page the full fetcher requests has index at most
`ceil(total_hits / 50)`. -/
lemma fetchAllData_reqs_le (q : String) (feed : List Hit) (cnt : Option Nat) :
    ∀ p ∈ (fetchAllData q feed cnt).2, p ≤ totalPagesOf feed.length := by
  cases cnt with
  | none => simp [fetchAllData]
  | some c =>
    have hs := fetchAllLoop_isSome q feed c
      (totalPagesOf feed.length + 1 + 1) 0 [] [] (by omega) (by omega)
    obtain ⟨⟨res, rq⟩, hres⟩ := Option.isSome_iff_exists.1 hs
    have : fetchAllData q feed (some c) = (res, rq) := by
      simp [fetchAllData, hres]
    rw [this]
    exact fetchAllLoop_reqs_le q feed c _ 0 [] [] res rq (by omega)
      (by simp) hres

/-! ### The boundary-stopping walk of the daily fetcher -/

lemma isEmpty_false_of_ne_nil {α : Type} {l : List α} (h : l ≠ []) :
    l.isEmpty = false := by
  cases l with
  | nil => exact absurd rfl h
  | cons a t => rfl

lemma fetchNewLoop_boundary (q : String) (oracle : String → Except Unit Bool)
    (pre : List Hit) (x : Hit) (post : List Hit) (c : Nat)
    (hpre : ∀ h ∈ pre, hitFoundExisting oracle h = false)
    (hx : hitFoundExisting oracle x = true)
    (hc : c < (pre ++ x :: post).length) :
    ∀ fuel page acc reqs,
      50 * page ≤ pre.length →
      pre.length / 50 < fuel + page →
      ∃ res rq,
        fetchNewLoop q oracle (pre ++ x :: post) c fuel page acc reqs = some (res, rq) ∧
          res.map (fun cn => cn.hit) = acc.map (fun cn => cn.hit) ++ pre.drop (50 * page) := by
  intro fuel
  induction fuel with
  | zero =>
    intro page acc reqs h50 hdiv
    exfalso
    have hdle : page ≤ pre.length / 50 :=
      (Nat.le_div_iff_mul_le (by norm_num)).2 (by omega)
    omega
  | succ f ih =>
    intro page acc reqs h50 hdiv
    have hgate : ¬ (page = 0 ∧ (pre ++ x :: post).length ≤ c) := by
      rintro ⟨-, hle⟩; omega
    have hdropfeed : (pre ++ x :: post).drop (50 * page)
        = pre.drop (50 * page) ++ x :: post :=
      List.drop_append_of_le_length h50
    have hdlen : (pre.drop (50 * page)).length = pre.length - 50 * page :=
      List.length_drop _ _
    by_cases hcase : pre.length < 50 * page + 50
    · -- the known hit `x` lies on this page: the scan stops here
      obtain ⟨m, hm⟩ : ∃ m, 50 - (pre.drop (50 * page)).length = m + 1 :=
        ⟨50 - (pre.drop (50 * page)).length - 1, by omega⟩
      have hhits : pageHits (pre ++ x :: post) page
          = pre.drop (50 * page) ++ x :: post.take m := by
        rw [pageHits, hdropfeed, List.take_append_eq_append_take,
          List.take_of_length_le (by omega), hm, List.take_succ_cons]
      have hnn : pageHits (pre ++ x :: post) page ≠ [] := by
        rw [hhits]
        intro h0
        have := congrArg List.length h0
        simp at this
      have hne := isEmpty_false_of_ne_nil hnn
      have hscan : scanHitsDaily oracle (urlFor q page) (pageHits (pre ++ x :: post) page)
          = ((pre.drop (50 * page)).map (normalizeDaily (urlFor q page)), true) := by
        rw [hhits]
        exact scanHitsDaily_stop oracle _ _ x _
          (fun h hh => hpre h (List.mem_of_mem_drop hh)) hx
      refine ⟨acc ++ (pre.drop (50 * page)).map (normalizeDaily (urlFor q page)),
        reqs ++ [page], ?_, ?_⟩
      · simp only [fetchNewLoop]
        rw [if_neg hgate]
        simp [hne, hscan]
      · rw [List.map_append, map_hit_map_normalizeDaily]
    · -- a full page of fresh hits: the walk advances to the next page
      push_neg at hcase
      have hhits : pageHits (pre ++ x :: post) page
          = (pre.drop (50 * page)).take 50 := by
        rw [pageHits, hdropfeed, List.take_append_of_le_length (by omega)]
      have hlen : (pageHits (pre ++ x :: post) page).length = 50 := by
        rw [hhits, List.length_take]
        omega
      have hnn : pageHits (pre ++ x :: post) page ≠ [] := by
        intro h0; rw [h0] at hlen; simp at hlen
      have hne := isEmpty_false_of_ne_nil hnn
      have hscan : scanHitsDaily oracle (urlFor q page) (pageHits (pre ++ x :: post) page)
          = ((pageHits (pre ++ x :: post) page).map (normalizeDaily (urlFor q page)), false) := by
        apply scanHitsDaily_no_stop
        intro h hh
        rw [hhits] at hh
        exact hpre h (List.mem_of_mem_drop (List.mem_of_mem_take hh))
      have hTP : ¬ (totalPagesOf (pre ++ x :: post).length ≤ page) := by
        intro hle
        have h2 : page + 2 ≤ ((pre ++ x :: post).length + 49) / 50 := by
          rw [Nat.le_div_iff_mul_le (by norm_num)]
          simp only [List.length_append, List.length_cons]
          omega
        rw [totalPagesOf] at hle
        omega
      obtain ⟨res, rq, hrec, hmap⟩ := ih (page + 1)
        (acc ++ (pageHits (pre ++ x :: post) page).map (normalizeDaily (urlFor q page)))
        (reqs ++ [page]) (by omega) (by omega)
      refine ⟨res, rq, ?_, ?_⟩
      · simp only [fetchNewLoop]
        simp only [hgate, hne, hscan, hlen, hTP]
        simp only [if_false, Bool.false_eq_true, decide_True, decide_False]
        simp only [lt_self_iff_false, if_false]
        simpa using hrec
      · rw [hmap, hhits, List.map_append, map_hit_map_normalizeDaily]
        have h1 : 50 * (page + 1) = 50 * page + 50 := by ring
        rw [h1, ← List.drop_drop, List.append_assoc, List.take_append_drop]

/-- Top-level form of the boundary stop: when the first `pre.length` hits
are fresh and the next hit is known to the store, the daily fetcher
returns exactly the hits of `pre`, in order. -/
lemma fetchNewData_boundary (q : String) (oracle : String → Except Unit Bool)
    (pre : List Hit) (x : Hit) (post : List Hit) (c : Nat)
    (hpre : ∀ h ∈ pre, hitFoundExisting oracle h = false)
    (hx : hitFoundExisting oracle x = true)
    (hc : c < (pre ++ x :: post).length) :
    ((fetchNewData q oracle (pre ++ x :: post) (some c)).1).map (fun cn => cn.hit) = pre := by
  have h1 : pre.length ≤ (pre ++ x :: post).length := by
    simp [List.length_append]
  have h2 : pre.length / 50 ≤ ((pre ++ x :: post).length + 49) / 50 :=
    Nat.div_le_div_right (by omega)
  obtain ⟨res, rq, hres, hmap⟩ := fetchNewLoop_boundary q oracle pre x post c hpre hx hc
    (totalPagesOf (pre ++ x :: post).length + 1 + 1) 0 [] []
    (by omega) (by simp only [totalPagesOf]; omega)
  simp only [fetchNewData, hres, Option.getD_some]
  simpa using hmap

/-! ### Facts needed for idempotence and the failing-oracle walk -/

/-- The stored count influences the full walk only through the page-0
gate: two counts that both pass the gate give identical walks. -/
lemma fetchAllLoop_count_irrel (q : String) (feed : List Hit) (c₁ c₂ : Nat)
    (h₁ : c₁ < feed.length) (h₂ : c₂ < feed.length) :
    ∀ fuel page acc reqs,
      fetchAllLoop q feed c₁ fuel page acc reqs
        = fetchAllLoop q feed c₂ fuel page acc reqs := by
  intro fuel
  induction fuel with
  | zero => intro page acc reqs; rfl
  | succ f ih =>
    intro page acc reqs
    have hg₁ : ¬ (page = 0 ∧ feed.length ≤ c₁) := by rintro ⟨-, h⟩; omega
    have hg₂ : ¬ (page = 0 ∧ feed.length ≤ c₂) := by rintro ⟨-, h⟩; omega
    simp only [fetchAllLoop]
    rw [if_neg hg₁, if_neg hg₂]
    split
    · rfl
    · split
      · rfl
      · split
        · rfl
        · exact ih (page + 1) _ _

lemma fetchAllData_count_irrel (q : String) (feed : List Hit) (c₁ c₂ : Nat)
    (h₁ : c₁ < feed.length) (h₂ : c₂ < feed.length) :
    fetchAllData q feed (some c₁) = fetchAllData q feed (some c₂) := by
  simp only [fetchAllData]
  rw [fetchAllLoop_count_irrel q feed c₁ c₂ h₁ h₂]

/-- Every record the full walk returns wraps a hit of the feed. -/
lemma fetchAllLoop_mem_feed (q : String) (feed : List Hit) (c : Nat) :
    ∀ fuel page acc reqs res rq,
      (∀ cn ∈ acc, cn.hit ∈ feed) →
      fetchAllLoop q feed c fuel page acc reqs = some (res, rq) →
      ∀ cn ∈ res, cn.hit ∈ feed := by
  intro fuel
  induction fuel with
  | zero => intro page acc reqs res rq _ h; simp [fetchAllLoop] at h
  | succ f ih =>
    intro page acc reqs res rq hacc h
    have hacc' : ∀ cn ∈ acc ++ (pageHits feed page).map
        (normalizeMain (urlFor q page) q), cn.hit ∈ feed := by
      intro cn hcn
      rcases List.mem_append.1 hcn with h' | h'
      · exact hacc cn h'
      · obtain ⟨hhit, hmem, heq⟩ := List.mem_map.1 h'
        rw [← heq]
        simp only [normalizeMain_hit]
        exact List.mem_of_mem_drop (List.mem_of_mem_take hmem)
    simp only [fetchAllLoop] at h
    split at h
    · simp only [Option.some.injEq, Prod.mk.injEq] at h
      intro cn hcn
      rw [← h.1] at hcn
      simp at hcn
    · split at h
      · simp only [Option.some.injEq, Prod.mk.injEq] at h
        intro cn hcn
        rw [← h.1] at hcn
        exact hacc cn hcn
      · split at h
        · simp only [Option.some.injEq, Prod.mk.injEq] at h
          intro cn hcn
          rw [← h.1] at hcn
          exact hacc' cn hcn
        · split at h
          · simp only [Option.some.injEq, Prod.mk.injEq] at h
            intro cn hcn
            rw [← h.1] at hcn
            exact hacc' cn hcn
          · exact ih (page + 1) _ _ res rq hacc' h

lemma fetchAllData_mem_feed (q : String) (feed : List Hit) (cnt : Option Nat) :
    ∀ cn ∈ (fetchAllData q feed cnt).1, cn.hit ∈ feed := by
  cases cnt with
  | none => simp [fetchAllData]
  | some c =>
    have hs := fetchAllLoop_isSome q feed c
      (totalPagesOf feed.length + 1 + 1) 0 [] [] (by omega) (by omega)
    obtain ⟨⟨res, rq⟩, hres⟩ := Option.isSome_iff_exists.1 hs
    have heq : fetchAllData q feed (some c) = (res, rq) := by
      simp [fetchAllData, hres]
    rw [heq]
    exact fetchAllLoop_mem_feed q feed c _ 0 [] [] res rq (by simp) hres

/-- Away from page 0 the full walk only ever appends to its
accumulator. -/
lemma fetchAllLoop_extendsAcc (q : String) (feed : List Hit) (c : Nat) :
    ∀ fuel page acc reqs res rq, 1 ≤ page →
      fetchAllLoop q feed c fuel page acc reqs = some (res, rq) →
      ∃ t, res = acc ++ t := by
  intro fuel
  induction fuel with
  | zero => intro page acc reqs res rq _ h; simp [fetchAllLoop] at h
  | succ f ih =>
    intro page acc reqs res rq hpage h
    have hgate : ¬ (page = 0 ∧ feed.length ≤ c) := by rintro ⟨h0, -⟩; omega
    simp only [fetchAllLoop] at h
    rw [if_neg hgate] at h
    split at h
    · simp only [Option.some.injEq, Prod.mk.injEq] at h
      exact ⟨[], by rw [← h.1]; simp⟩
    · split at h
      · simp only [Option.some.injEq, Prod.mk.injEq] at h
        exact ⟨_, h.1.symm⟩
      · split at h
        · simp only [Option.some.injEq, Prod.mk.injEq] at h
          exact ⟨_, h.1.symm⟩
        · obtain ⟨t, ht⟩ := ih (page + 1) _ _ res rq (by omega) h
          exact ⟨_, by rw [ht, List.append_assoc]⟩

/-- When the gate passes and the feed is nonempty, the full walk returns
at least the hits of page 0, hence a nonempty record list. -/
lemma fetchAllData_ne_nil (q : String) (feed : List Hit) (c : Nat)
    (hc : c < feed.length) : (fetchAllData q feed (some c)).1 ≠ [] := by
  have hfe : feed ≠ [] := by
    intro h0; rw [h0] at hc; simp at hc
  have hgate : ¬ ((0 : Nat) = 0 ∧ feed.length ≤ c) := by rintro ⟨-, h⟩; omega
  have hhits0 : pageHits feed 0 = feed.take 50 := by simp [pageHits]
  have hnn : pageHits feed 0 ≠ [] := by
    rw [hhits0, Ne, List.take_eq_nil_iff]
    rintro (h | h)
    · simp at h
    · exact hfe h
  have hmapne : (pageHits feed 0).map (normalizeMain (urlFor q 0) q) ≠ [] := by
    cases hp : pageHits feed 0 with
    | nil => exact absurd hp hnn
    | cons a t => simp
  have hneP : ¬ ((pageHits feed 0).isEmpty = true) := by
    rw [isEmpty_false_of_ne_nil hnn]; simp
  simp only [fetchAllData]
  rw [fetchAllLoop]
  rw [if_neg hgate, if_neg hneP]
  by_cases hlen : (pageHits feed 0).length < 50
  · rw [if_pos hlen]
    simpa using hmapne
  · rw [if_neg hlen]
    by_cases hTP : totalPagesOf feed.length ≤ 0
    · rw [if_pos hTP]
      simpa using hmapne
    · rw [if_neg hTP]
      have hs := fetchAllLoop_isSome q feed c (totalPagesOf feed.length + 1) (0 + 1)
        ([] ++ (pageHits feed 0).map (normalizeMain (urlFor q 0) q)) ([] ++ [0])
        (by omega) (by omega)
      obtain ⟨⟨res, rq⟩, hres⟩ := Option.isSome_iff_exists.1 hs
      obtain ⟨t, ht⟩ := fetchAllLoop_extendsAcc q feed c (totalPagesOf feed.length + 1) (0 + 1)
        _ _ res rq (by omega) hres
      rw [hres]
      show res ≠ []
      rw [ht]
      intro h0
      exact hmapne (List.append_eq_nil.1 (by simpa using h0)).1

/-- When no hit ever triggers the existence stop (in particular when the
store oracle fails on every call), the daily walk visits the same pages
and collects the same hits as the full-reconciliation walk. -/
lemma fetchNewLoop_agrees_fetchAllLoop (q : String) (oracle : String → Except Unit Bool)
    (feed : List Hit) (c : Nat)
    (hor : ∀ h, hitFoundExisting oracle h = false) :
    ∀ fuel page acc₁ acc₂ reqs,
      acc₁.map (fun cn => cn.hit) = acc₂.map (fun cn => cn.hit) →
      Option.map (fun r => (r.1.map (fun cn => cn.hit), r.2))
          (fetchNewLoop q oracle feed c fuel page acc₁ reqs)
        = Option.map (fun r => (r.1.map (fun cn => cn.hit), r.2))
          (fetchAllLoop q feed c fuel page acc₂ reqs) := by
  intro fuel
  induction fuel with
  | zero => intro page acc₁ acc₂ reqs _; rfl
  | succ f ih =>
    intro page acc₁ acc₂ reqs hacc
    simp only [fetchNewLoop, fetchAllLoop]
    by_cases hg : page = 0 ∧ feed.length ≤ c
    · rw [if_pos hg, if_pos hg]
    · rw [if_neg hg, if_neg hg]
      by_cases hemp : (pageHits feed page).isEmpty = true
      · rw [if_pos hemp, if_pos hemp]
        simp [hacc]
      · rw [if_neg hemp, if_neg hemp]
        have hscan := scanHitsDaily_no_stop oracle (urlFor q page) (pageHits feed page)
          (fun h _ => hor h)
        rw [hscan]
        dsimp only
        rw [if_neg (by simp : ¬ (false = true))]
        have hmaps : (acc₁ ++ (pageHits feed page).map
              (normalizeDaily (urlFor q page))).map (fun cn => cn.hit)
            = (acc₂ ++ (pageHits feed page).map
              (normalizeMain (urlFor q page) q)).map (fun cn => cn.hit) := by
          rw [List.map_append, List.map_append, map_hit_map_normalizeDaily,
            map_hit_map_normalizeMain, hacc]
        by_cases hlen : (pageHits feed page).length < 50
        · rw [if_pos hlen, if_pos hlen]
          simp [hmaps]
        · rw [if_neg hlen, if_neg hlen]
          by_cases hTP : totalPagesOf feed.length ≤ page
          · rw [if_pos hTP, if_pos hTP]
            simp [hmaps]
          · rw [if_neg hTP, if_neg hTP]
            exact ih (page + 1) _ _ _ hmaps

/-- Top-level agreement: with a never-stopping oracle the daily fetcher
returns the same hits as the full fetcher. -/
lemma fetchNewData_agrees_fetchAllData (q : String) (oracle : String → Except Unit Bool)
    (feed : List Hit) (cnt : Option Nat)
    (hor : ∀ h, hitFoundExisting oracle h = false) :
    ((fetchNewData q oracle feed cnt).1).map (fun cn => cn.hit)
      = ((fetchAllData q feed cnt).1).map (fun cn => cn.hit) := by
  cases cnt with
  | none => rfl
  | some c =>
    have hagree := fetchNewLoop_agrees_fetchAllLoop q oracle feed c hor
      (totalPagesOf feed.length + 1 + 1) 0 [] [] [] rfl
    have hs₁ := fetchNewLoop_isSome q oracle feed c
      (totalPagesOf feed.length + 1 + 1) 0 [] [] (by omega) (by omega)
    have hs₂ := fetchAllLoop_isSome q feed c
      (totalPagesOf feed.length + 1 + 1) 0 [] [] (by omega) (by omega)
    obtain ⟨⟨res₁, rq₁⟩, h₁⟩ := Option.isSome_iff_exists.1 hs₁
    obtain ⟨⟨res₂, rq₂⟩, h₂⟩ := Option.isSome_iff_exists.1 hs₂
    rw [h₁, h₂] at hagree
    simp only [Option.map_some'] at hagree
    simp only [fetchNewData, fetchAllData, h₁, h₂, Option.getD_some]
    simp only [Option.some.injEq, Prod.mk.injEq] at hagree
    exact hagree.1

/-! ### Arithmetic of insert results -/

@[simp]
lemma InsertResult.add_mk (a₁ a₂ a₃ b₁ b₂ b₃ : Nat) :
    (⟨a₁, a₂, a₃⟩ : InsertResult) + ⟨b₁, b₂, b₃⟩ = ⟨a₁ + b₁, a₂ + b₂, a₃ + b₃⟩ := rfl

lemma InsertResult.zero_add (r : InsertResult) : (⟨0, 0, 0⟩ : InsertResult) + r = r := by
  obtain ⟨i, d, e⟩ := r
  simp

lemma InsertResult.add_zero (r : InsertResult) : r + (⟨0, 0, 0⟩ : InsertResult) = r := by
  obtain ⟨i, d, e⟩ := r
  simp

/-- The running counters of the Mongo insert loop factor out: the final
store does not depend on them and the final counters are the initial ones
plus the batch result. -/
lemma mongoInsertLoop_shift (exc : Canon → Bool) :
    ∀ (L S : List Canon) (acc : InsertResult),
      mongoInsertLoop exc S L acc
        = ((mongoInsertBatch exc S L).1, acc + (mongoInsertBatch exc S L).2) := by
  intro L
  induction L with
  | nil =>
    intro S acc
    simp [mongoInsertLoop, mongoInsertBatch, InsertResult.add_zero]
  | cons c t ih =>
    intro S acc
    simp only [mongoInsertBatch, mongoInsertLoop]
    cases hid : c.hit.itemId with
    | some id =>
      dsimp only
      by_cases hdup : storeHasId S id = true
      · rw [if_pos hdup, if_pos hdup, ih, ih]
        simp only [mongoInsertBatch, Prod.mk.injEq, true_and]
        obtain ⟨i, d, e⟩ := acc
        generalize (mongoInsertLoop exc S t ⟨0, 0, 0⟩).2 = r
        obtain ⟨i', d', e'⟩ := r
        simp only [InsertResult.add_mk, InsertResult.mk.injEq]
        omega
      · rw [if_neg hdup, if_neg hdup]
        by_cases hexc : exc c = true
        · rw [if_pos hexc, if_pos hexc, ih, ih]
          simp only [mongoInsertBatch, Prod.mk.injEq, true_and]
          obtain ⟨i, d, e⟩ := acc
          generalize (mongoInsertLoop exc S t ⟨0, 0, 0⟩).2 = r
          obtain ⟨i', d', e'⟩ := r
          simp only [InsertResult.add_mk, InsertResult.mk.injEq]
          omega
        · rw [if_neg hexc, if_neg hexc, ih, ih]
          simp only [mongoInsertBatch, Prod.mk.injEq, true_and]
          obtain ⟨i, d, e⟩ := acc
          generalize (mongoInsertLoop exc (S ++ [c]) t ⟨0, 0, 0⟩).2 = r
          obtain ⟨i', d', e'⟩ := r
          simp only [InsertResult.add_mk, InsertResult.mk.injEq]
          omega
    | none =>
      dsimp only
      rw [ih, ih]
      simp only [mongoInsertBatch, Prod.mk.injEq, true_and]
      obtain ⟨i, d, e⟩ := acc
      generalize (mongoInsertLoop exc S t ⟨0, 0, 0⟩).2 = r
      obtain ⟨i', d', e'⟩ := r
      simp only [InsertResult.add_mk, InsertResult.mk.injEq]
      omega

/-! ### Store facts for the Mongo insert loop -/

lemma storeHasId_iff (S : List Canon) (id : String) :
    storeHasId S id = true ↔ id ∈ S.filterMap (fun c => c.hit.itemId) := by
  simp only [storeHasId, List.any_eq_true, List.mem_filterMap, beq_iff_eq]

lemma storeHasId_append (S T : List Canon) (id : String) :
    storeHasId (S ++ T) id = (storeHasId S id || storeHasId T id) := by
  simp [storeHasId, List.any_append]

lemma storeHasId_snoc_self (S : List Canon) (c : Canon) (id : String)
    (hid : c.hit.itemId = some id) : storeHasId (S ++ [c]) id = true := by
  rw [storeHasId_append]
  simp [storeHasId, hid]

/-- The insert loop only ever appends records to the store. -/
lemma mongoInsertLoop_grows (exc : Canon → Bool) :
    ∀ (L S : List Canon) (acc : InsertResult),
      ∃ T, (mongoInsertLoop exc S L acc).1 = S ++ T := by
  intro L
  induction L with
  | nil => intro S acc; exact ⟨[], by simp [mongoInsertLoop]⟩
  | cons c t ih =>
    intro S acc
    simp only [mongoInsertLoop]
    cases hid : c.hit.itemId with
    | some id =>
      dsimp only
      by_cases hdup : storeHasId S id = true
      · rw [if_pos hdup]; exact ih S _
      · rw [if_neg hdup]
        by_cases hexc : exc c = true
        · rw [if_pos hexc]; exact ih S _
        · rw [if_neg hexc]
          obtain ⟨T, hT⟩ := ih (S ++ [c]) _
          exact ⟨[c] ++ T, by rw [hT, List.append_assoc]⟩
    | none => dsimp only; exact ih S _

lemma mongoInsertLoop_hasId_mono (exc : Canon → Bool) (L S : List Canon)
    (acc : InsertResult) (id : String) (h : storeHasId S id = true) :
    storeHasId (mongoInsertLoop exc S L acc).1 id = true := by
  obtain ⟨T, hT⟩ := mongoInsertLoop_grows exc L S acc
  rw [hT, storeHasId_append, h, Bool.true_or]

/-- A batch insert preserves the uniqueness invariant of the store. -/
lemma mongoInsertLoop_unique (exc : Canon → Bool) :
    ∀ (L S : List Canon) (acc : InsertResult), storeUnique S →
      storeUnique (mongoInsertLoop exc S L acc).1 := by
  intro L
  induction L with
  | nil => intro S acc hS; simpa [mongoInsertLoop] using hS
  | cons c t ih =>
    intro S acc hS
    simp only [mongoInsertLoop]
    cases hid : c.hit.itemId with
    | some id =>
      dsimp only
      by_cases hdup : storeHasId S id = true
      · rw [if_pos hdup]; exact ih S _ hS
      · rw [if_neg hdup]
        by_cases hexc : exc c = true
        · rw [if_pos hexc]; exact ih S _ hS
        · rw [if_neg hexc]
          apply ih
          unfold storeUnique at hS ⊢
          rw [List.filterMap_append]
          simp only [List.filterMap, hid]
          rw [List.nodup_append]
          refine ⟨hS, by simp, ?_⟩
          intro a ha hb
          simp at hb
          subst hb
          exact hdup ((storeHasId_iff S _).2 ha)
    | none => dsimp only; exact ih S _ hS

/-- A record whose `itemId` is already in the store is skipped: the store
is unchanged and only the duplicate counter moves. -/
lemma mongoInsertLoop_all_dups (exc : Canon → Bool) :
    ∀ (L S : List Canon) (acc : InsertResult),
      (∀ cn ∈ L, ∃ id, cn.hit.itemId = some id ∧ storeHasId S id = true) →
      mongoInsertLoop exc S L acc
        = (S, { acc with duplicates := acc.duplicates + L.length }) := by
  intro L
  induction L with
  | nil => intro S acc _; simp [mongoInsertLoop]
  | cons c t ih =>
    intro S acc hall
    obtain ⟨id, hid, hhas⟩ := hall c (by simp)
    simp only [mongoInsertLoop, hid]
    rw [if_pos hhas, ih S _ (fun cn hcn => hall cn (by simp [hcn]))]
    simp only [Prod.mk.injEq, true_and, InsertResult.mk.injEq, List.length_cons]
    exact ⟨by omega, trivial⟩

/-- With no per-record exceptions, after the batch every record of the
batch that carries an `itemId` is present in the store. -/
lemma mongoInsertLoop_ids_present (exc : Canon → Bool)
    (hexc : ∀ cn, exc cn = false) :
    ∀ (L S : List Canon) (acc : InsertResult) (cn : Canon) (id : String),
      cn ∈ L → cn.hit.itemId = some id →
      storeHasId (mongoInsertLoop exc S L acc).1 id = true := by
  intro L
  induction L with
  | nil => intro S acc cn id hmem; simp at hmem
  | cons c t ih =>
    intro S acc cn id hmem hid
    rcases List.mem_cons.1 hmem with heq | hmem'
    · subst heq
      simp only [mongoInsertLoop, hid]
      by_cases hdup : storeHasId S id = true
      · rw [if_pos hdup]
        exact mongoInsertLoop_hasId_mono exc t S _ id hdup
      · rw [if_neg hdup, hexc _]
        simp only [Bool.false_eq_true, if_false]
        exact mongoInsertLoop_hasId_mono exc t (S ++ [cn]) _ id
          (storeHasId_snoc_self S cn id hid)
    · simp only [mongoInsertLoop]
      cases hcid : c.hit.itemId with
      | some cid =>
        dsimp only
        by_cases hdup : storeHasId S cid = true
        · rw [if_pos hdup]; exact ih S _ cn id hmem' hid
        · rw [if_neg hdup, hexc c]
          simp only [Bool.false_eq_true, if_false]
          exact ih (S ++ [c]) _ cn id hmem' hid
      | none => dsimp only; exact ih S _ cn id hmem' hid

/-- `find?` by id is unchanged by a batch insert whenever the id was
already present: the stored record is never overwritten. -/
lemma mongoInsertBatch_findById (exc : Canon → Bool) (S L : List Canon)
    (id : String) (hin : storeHasId S id = true) :
    findById (mongoInsertBatch exc S L).1 id = findById S id := by
  obtain ⟨T, hT⟩ := mongoInsertLoop_grows exc L S ⟨0, 0, 0⟩
  have hsome : (S.find? (fun c => c.hit.itemId == some id)).isSome := by
    rw [List.find?_isSome]
    obtain ⟨c, hc, hcid⟩ := List.any_eq_true.1 hin
    exact ⟨c, hc, hcid⟩
  obtain ⟨v, hv⟩ := Option.isSome_iff_exists.1 hsome
  simp only [mongoInsertBatch, findById, hT, List.find?_append, hv]
  rfl

/-- Processing a concatenated batch is the same as processing its parts in
sequence, with the counters adding up. -/
lemma mongoInsertLoop_append (exc : Canon → Bool) :
    ∀ (xs ys S : List Canon) (acc : InsertResult),
      mongoInsertLoop exc S (xs ++ ys) acc
        = mongoInsertLoop exc (mongoInsertLoop exc S xs acc).1 ys
            (mongoInsertLoop exc S xs acc).2 := by
  intro xs
  induction xs with
  | nil => intro ys S acc; simp [mongoInsertLoop]
  | cons c t ih =>
    intro ys S acc
    rw [List.cons_append]
    simp only [mongoInsertLoop]
    cases hid : c.hit.itemId with
    | some id =>
      dsimp only
      by_cases hdup : storeHasId S id = true
      · rw [if_pos hdup, if_pos hdup]; exact ih ys S _
      · rw [if_neg hdup, if_neg hdup]
        by_cases hexc : exc c = true
        · rw [if_pos hexc, if_pos hexc]; exact ih ys S _
        · rw [if_neg hexc, if_neg hexc]; exact ih ys (S ++ [c]) _
    | none => dsimp only; exact ih ys S _

lemma mongoInsertBatch_append (exc : Canon → Bool) (S xs ys : List Canon) :
    mongoInsertBatch exc S (xs ++ ys)
      = ((mongoInsertBatch exc (mongoInsertBatch exc S xs).1 ys).1,
          (mongoInsertBatch exc S xs).2
            + (mongoInsertBatch exc (mongoInsertBatch exc S xs).1 ys).2) := by
  unfold mongoInsertBatch
  rw [mongoInsertLoop_append, mongoInsertLoop_shift exc ys]
  simp only [mongoInsertBatch]

/-! ### The same factoring for the SQL insert loop -/

lemma sqlInsertLoop_shift (exc : Canon → Bool) :
    ∀ (L S : List Canon) (acc : InsertResult),
      sqlInsertLoop exc S L acc
        = ((sqlInsertBatch exc S L).1, acc + (sqlInsertBatch exc S L).2) := by
  intro L
  induction L with
  | nil =>
    intro S acc
    simp [sqlInsertLoop, sqlInsertBatch, InsertResult.add_zero]
  | cons c t ih =>
    intro S acc
    simp only [sqlInsertBatch, sqlInsertLoop]
    cases hid : c.hit.itemId with
    | some id =>
      dsimp only
      by_cases hz : id = ""
      · rw [if_pos hz, if_pos hz, ih, ih]
        simp only [sqlInsertBatch, Prod.mk.injEq, true_and]
        obtain ⟨i, d, e⟩ := acc
        generalize (sqlInsertLoop exc S t ⟨0, 0, 0⟩).2 = r
        obtain ⟨i', d', e'⟩ := r
        simp only [InsertResult.add_mk, InsertResult.mk.injEq]
        omega
      · rw [if_neg hz, if_neg hz]
        by_cases hexc : exc c = true
        · rw [if_pos hexc, if_pos hexc, ih, ih]
          simp only [sqlInsertBatch, Prod.mk.injEq, true_and]
          obtain ⟨i, d, e⟩ := acc
          generalize (sqlInsertLoop exc S t ⟨0, 0, 0⟩).2 = r
          obtain ⟨i', d', e'⟩ := r
          simp only [InsertResult.add_mk, InsertResult.mk.injEq]
          omega
        · rw [if_neg hexc, if_neg hexc]
          by_cases hdup : storeHasId S id = true
          · rw [if_pos hdup, if_pos hdup, ih, ih]
            simp only [sqlInsertBatch, Prod.mk.injEq, true_and]
            obtain ⟨i, d, e⟩ := acc
            generalize (sqlInsertLoop exc S t ⟨0, 0, 0⟩).2 = r
            obtain ⟨i', d', e'⟩ := r
            simp only [InsertResult.add_mk, InsertResult.mk.injEq]
            omega
          · rw [if_neg hdup, if_neg hdup, ih, ih]
            simp only [sqlInsertBatch, Prod.mk.injEq, true_and]
            obtain ⟨i, d, e⟩ := acc
            generalize (sqlInsertLoop exc (S ++ [c]) t ⟨0, 0, 0⟩).2 = r
            obtain ⟨i', d', e'⟩ := r
            simp only [InsertResult.add_mk, InsertResult.mk.injEq]
            omega
    | none =>
      dsimp only
      rw [ih, ih]
      simp only [sqlInsertBatch, Prod.mk.injEq, true_and]
      obtain ⟨i, d, e⟩ := acc
      generalize (sqlInsertLoop exc S t ⟨0, 0, 0⟩).2 = r
      obtain ⟨i', d', e'⟩ := r
      simp only [InsertResult.add_mk, InsertResult.mk.injEq]
      omega

lemma sqlInsertLoop_append (exc : Canon → Bool) :
    ∀ (xs ys S : List Canon) (acc : InsertResult),
      sqlInsertLoop exc S (xs ++ ys) acc
        = sqlInsertLoop exc (sqlInsertLoop exc S xs acc).1 ys
            (sqlInsertLoop exc S xs acc).2 := by
  intro xs
  induction xs with
  | nil => intro ys S acc; simp [sqlInsertLoop]
  | cons c t ih =>
    intro ys S acc
    rw [List.cons_append]
    simp only [sqlInsertLoop]
    cases hid : c.hit.itemId with
    | some id =>
      dsimp only
      by_cases hz : id = ""
      · rw [if_pos hz, if_pos hz]; exact ih ys S _
      · rw [if_neg hz, if_neg hz]
        by_cases hexc : exc c = true
        · rw [if_pos hexc, if_pos hexc]; exact ih ys S _
        · rw [if_neg hexc, if_neg hexc]
          by_cases hdup : storeHasId S id = true
          · rw [if_pos hdup, if_pos hdup]; exact ih ys S _
          · rw [if_neg hdup, if_neg hdup]; exact ih ys (S ++ [c]) _
    | none => dsimp only; exact ih ys S _

lemma sqlInsertBatch_append (exc : Canon → Bool) (S xs ys : List Canon) :
    sqlInsertBatch exc S (xs ++ ys)
      = ((sqlInsertBatch exc (sqlInsertBatch exc S xs).1 ys).1,
          (sqlInsertBatch exc S xs).2
            + (sqlInsertBatch exc (sqlInsertBatch exc S xs).1 ys).2) := by
  unfold sqlInsertBatch
  rw [sqlInsertLoop_append, sqlInsertLoop_shift exc ys]
  simp only [sqlInsertBatch]

/-! ### Aggregate statistics -/

lemma applyContrib_zero_right (s : BatchStats) : applyContrib s ⟨0, 0, 0, 0, 0⟩ = s := by
  obtain ⟨a, b, c, d, e⟩ := s
  simp [applyContrib]

/-- Folding the locked update over the task contributions yields the
componentwise sums. -/
lemma foldl_applyContrib_totals :
    ∀ (ds : List BatchStats) (s0 : BatchStats),
      ds.foldl applyContrib s0
        = ⟨s0.queriesProcessed + (ds.map (fun d => d.queriesProcessed)).sum,
           s0.totalRecords + (ds.map (fun d => d.totalRecords)).sum,
           s0.totalInserted + (ds.map (fun d => d.totalInserted)).sum,
           s0.totalDuplicates + (ds.map (fun d => d.totalDuplicates)).sum,
           s0.totalErrors + (ds.map (fun d => d.totalErrors)).sum⟩ := by
  intro ds
  induction ds with
  | nil =>
    intro s0
    obtain ⟨a, b, c, d, e⟩ := s0
    simp
  | cons d t ih =>
    intro s0
    rw [List.foldl_cons, ih]
    obtain ⟨a₁, b₁, c₁, d₁, e₁⟩ := s0
    obtain ⟨a₂, b₂, c₂, d₂, e₂⟩ := d
    simp only [applyContrib, List.map_cons, List.sum_cons, BatchStats.mk.injEq]
    omega

/-- A task contributing nothing leaves the fold unchanged: sibling tasks
are unaffected by it. -/
lemma foldl_applyContrib_erase_zero (ds₁ ds₂ : List BatchStats) (s0 : BatchStats) :
    (ds₁ ++ (⟨0, 0, 0, 0, 0⟩ : BatchStats) :: ds₂).foldl applyContrib s0
      = (ds₁ ++ ds₂).foldl applyContrib s0 := by
  rw [List.foldl_append, List.foldl_append, List.foldl_cons, applyContrib_zero_right]

/-! ### The Python split used for `date_normal` -/

lemma splitOnChar_ne_nil (sep : Char) : ∀ l : List Char, splitOnChar sep l ≠ [] := by
  intro l
  cases l with
  | nil => simp [splitOnChar]
  | cons c rest =>
    simp only [splitOnChar]
    cases h : splitOnChar sep rest with
    | nil => simp
    | cons a t =>
      by_cases hc : c = sep
      · simp [hc]
      · simp [hc]

lemma splitOnChar_head_before_sep (sep : Char) :
    ∀ (a b : List Char), sep ∉ a →
      (splitOnChar sep (a ++ sep :: b)).headD [] = a := by
  intro a
  induction a with
  | nil =>
    intro b _
    simp only [List.nil_append, splitOnChar]
    cases h : splitOnChar sep b with
    | nil => exact absurd h (splitOnChar_ne_nil sep b)
    | cons x t => simp
  | cons c a' ih =>
    intro b hs
    have hc : c ≠ sep := by
      intro h
      exact hs (by simp [h])
    simp only [List.cons_append, splitOnChar]
    cases h : splitOnChar sep (a' ++ sep :: b) with
    | nil => exact absurd h (splitOnChar_ne_nil sep _)
    | cons x t =>
      have hx : x = a' := by
        have h2 := ih b (fun hmem => hs (by simp [hmem]))
        rw [h] at h2
        simpa using h2
      simp [hc, hx]

lemma pySplitHeadT_before (a b : List Char) (h : 'T' ∉ a) :
    pySplitHeadT (String.mk (a ++ 'T' :: b)) = String.mk a := by
  simp only [pySplitHeadT]
  rw [splitOnChar_head_before_sep 'T' a b h]

/-! ### Example values used by the concrete instantiations -/

def exFreshHit : Hit := ⟨some "b", none, none, 1⟩

def exKnownHit : Hit := ⟨some "a", none, none, 2⟩

def exPlainHit : Hit := ⟨none, none, none, 0⟩

def exOracle : String → Except Unit Bool := fun id => Except.ok (id == "a")

def exCanonA : Canon := ⟨exKnownHit, "", none, false, none⟩

def exDateHit : Hit := ⟨none, some (JVal.str "x"), some (String.mk ['5', 'T', '6']), 0⟩

/-! ### Claims -/

/-- C1: for every query, if the stored count returned by the Existence
Oracle is at least the remote `totalHits` read from page 0, both fetchers
perform exactly one page request (page 0) and return the empty record
list, signalling that no update is needed. -/
theorem claim_C1 (q : String) (oracle : String → Except Unit Bool)
    (feed : List Hit) (c : Nat) (hc : feed.length ≤ c) :
    fetchNewData q oracle feed (some c) = ([], [0])
      ∧ fetchAllData q feed (some c) = ([], [0]) :=
  ⟨fetchNewData_gate q oracle feed c hc, fetchAllData_gate q feed c hc⟩

theorem claim_C1_witness :
    [exKnownHit].length ≤ 3
      ∧ (fetchNewData "jordan" exOracle [exKnownHit] (some 3) = ([], [0])
        ∧ fetchAllData "jordan" [exKnownHit] (some 3) = ([], [0])) :=
  ⟨by decide, claim_C1 "jordan" exOracle [exKnownHit] 3 (by decide)⟩

/-- C2: in daily-incremental mode, when the first `k` hits of the
reverse-chronological feed do not trigger the existence stop and the
`(k+1)`-th hit is reported as already stored (it carries a truthy
`itemId` that the Existence Oracle confirms), the walk returns exactly
those first `k` hits in feed order — the known hit stops the scan of its
page and the whole walk, and neither it nor any later hit is added.
Here `pre` is the fresh prefix (`k = pre.length`) and the stored count is
below `totalHits`, so the page-0 gate lets the walk start. -/
theorem claim_C2 (q : String) (oracle : String → Except Unit Bool)
    (pre : List Hit) (x : Hit) (post : List Hit) (c : Nat)
    (hfresh : ∀ h ∈ pre, hitFoundExisting oracle h = false)
    (hknown : hitFoundExisting oracle x = true)
    (hgate : c < (pre ++ x :: post).length) :
    ((fetchNewData q oracle (pre ++ x :: post) (some c)).1).map (fun cn => cn.hit) = pre :=
  fetchNewData_boundary q oracle pre x post c hfresh hknown hgate

theorem claim_C2_witness :
    (∀ h ∈ [exFreshHit], hitFoundExisting exOracle h = false)
      ∧ hitFoundExisting exOracle exKnownHit = true
      ∧ 0 < ([exFreshHit] ++ exKnownHit :: []).length
      ∧ ((fetchNewData "jordan" exOracle ([exFreshHit] ++ exKnownHit :: [])
          (some 0)).1).map (fun cn => cn.hit) = [exFreshHit] :=
  ⟨by decide, by decide, by decide,
    claim_C2 "jordan" exOracle [exFreshHit] exKnownHit [] 0
      (by decide) (by decide) (by decide)⟩

/-- C3 counterexample to the claim as stated: with a remote feed of
exactly 50 hits and stored count 0, the walk requests pages 0 and 1, and
page index 1 equals `ceil(50 / 50)` — so a page with index at (not past)
the computed page count is requested, contrary to the claim that no page
with index at or past `ceil(total_hits / 50)` is requested.  (After a
full page the loop compares the current index with the page count before
incrementing, so the page with index equal to the page count is still
fetched and found empty.) -/
theorem claim_C3_counterexample :
    ∃ p ∈ (fetchAllData "q" (List.replicate 50 exPlainHit) (some 0)).2,
      totalPagesOf (List.replicate 50 exPlainHit).length ≤ p := by
  decide

/-- C3 (amended): for every feed the paging loop terminates (any fuel at
least `ceil(total_hits / 50) + 2` suffices, which is the fuel the entry
points use), and — after checking, in order, the mid-page existing-item
stop, the short-page stop and the page-count stop, else advancing — every
page index it requests is at most `ceil(total_hits / 50)`; a page with
index equal to that bound may be requested (see the counterexample), but
never one past it. -/
theorem claim_C3 (q : String) (oracle : String → Except Unit Bool)
    (feed : List Hit) (c : Nat) :
    (∀ fuel page acc reqs, page ≤ totalPagesOf feed.length →
        totalPagesOf feed.length + 1 + 1 ≤ fuel + page →
        (fetchNewLoop q oracle feed c fuel page acc reqs).isSome)
    ∧ (∀ fuel page acc reqs, page ≤ totalPagesOf feed.length →
        totalPagesOf feed.length + 1 + 1 ≤ fuel + page →
        (fetchAllLoop q feed c fuel page acc reqs).isSome)
    ∧ (∀ cnt, ∀ p ∈ (fetchNewData q oracle feed cnt).2, p ≤ totalPagesOf feed.length)
    ∧ (∀ cnt, ∀ p ∈ (fetchAllData q feed cnt).2, p ≤ totalPagesOf feed.length) :=
  ⟨fun fuel page acc reqs h1 h2 => fetchNewLoop_isSome q oracle feed c fuel page acc reqs h1 h2,
   fun fuel page acc reqs h1 h2 => fetchAllLoop_isSome q feed c fuel page acc reqs h1 h2,
   fun cnt => fetchNewData_reqs_le q oracle feed cnt,
   fun cnt => fetchAllData_reqs_le q feed cnt⟩

theorem claim_C3_witness :
    ((fetchNewLoop "q" exOracle [] 0 2 0 [] []).isSome
      ∧ (fetchAllLoop "q" [] 0 2 0 [] []).isSome)
      ∧ (∀ p ∈ (fetchNewData "q" exOracle [] (some 0)).2,
          p ≤ totalPagesOf ([] : List Hit).length)
      ∧ (∀ p ∈ (fetchAllData "q" [] (some 0)).2,
          p ≤ totalPagesOf ([] : List Hit).length) :=
  ⟨⟨(claim_C3 "q" exOracle [] 0).1 2 0 [] [] (by decide) (by decide),
    (claim_C3 "q" exOracle [] 0).2.1 2 0 [] [] (by decide) (by decide)⟩,
   (claim_C3 "q" exOracle [] 0).2.2.1 (some 0),
   (claim_C3 "q" exOracle [] 0).2.2.2 (some 0)⟩

/-- C4 counterexample to the claim as stated: when the stored-count read
fails (the `-1` / `none` case, e.g. the store is unreachable), the
fetcher returns the bare empty list — the very value the no-update-needed
outcome returns.  The function returns only a record list, so there is no
separate status code, and the per-query statistics update sees an empty
list and leaves every counter, including the error counter, untouched:
the failed query is not counted as an error. -/
theorem claim_C4_counterexample :
    (fetchAllData "q" [exPlainHit] none).1 = (fetchAllData "q" [exPlainHit] (some 5)).1
      ∧ queryContrib (fetchAllData "q" [exPlainHit] none).1 ⟨0, 0, 0⟩
          = ⟨0, 0, 0, 0, 0⟩ := by
  decide

/-- C4 (amended): the Incremental Fetcher never raises for expected
failure modes, but it does not report them either: a stored-count failure
yields the plain empty list with no page requested, a value identical to
the no-update-needed result — the two outcomes are not distinguishable by
any status, only the empty list itself is returned — and such a failed
query is not counted as an error in the aggregate statistics (its
contribution is the zero delta), while sibling queries are unaffected
(removing the zero contribution from the fold leaves every counter
unchanged). -/
theorem claim_C4 (q : String) (oracle : String → Except Unit Bool)
    (feed : List Hit) (r : InsertResult) (s0 : BatchStats)
    (ds₁ ds₂ : List BatchStats) (c : Nat) (hc : feed.length ≤ c) :
    fetchNewData q oracle feed none = ([], [])
    ∧ fetchAllData q feed none = ([], [])
    ∧ (fetchAllData q feed none).1 = (fetchAllData q feed (some c)).1
    ∧ queryContrib [] r = ⟨0, 0, 0, 0, 0⟩
    ∧ (ds₁ ++ queryContrib [] r :: ds₂).foldl applyContrib s0
        = (ds₁ ++ ds₂).foldl applyContrib s0 := by
  refine ⟨rfl, rfl, ?_, rfl, ?_⟩
  · rw [fetchAllData_gate q feed c hc]
    rfl
  · have hz : queryContrib [] r = ⟨0, 0, 0, 0, 0⟩ := rfl
    rw [hz, foldl_applyContrib_erase_zero]

theorem claim_C4_witness :
    ([exPlainHit].length ≤ 5)
      ∧ (fetchNewData "q" exOracle [exPlainHit] none = ([], [])
        ∧ fetchAllData "q" [exPlainHit] none = ([], [])
        ∧ (fetchAllData "q" [exPlainHit] none).1 = (fetchAllData "q" [exPlainHit] (some 5)).1
        ∧ queryContrib [] (⟨1, 2, 3⟩ : InsertResult) = ⟨0, 0, 0, 0, 0⟩
        ∧ ([(⟨1, 1, 1, 1, 1⟩ : BatchStats)]
              ++ queryContrib [] (⟨1, 2, 3⟩ : InsertResult) :: [(⟨2, 2, 2, 2, 2⟩ : BatchStats)]).foldl
            applyContrib ⟨0, 0, 0, 0, 0⟩
          = ([(⟨1, 1, 1, 1, 1⟩ : BatchStats)] ++ [(⟨2, 2, 2, 2, 2⟩ : BatchStats)]).foldl
              applyContrib ⟨0, 0, 0, 0, 0⟩) :=
  ⟨by decide,
    claim_C4 "q" exOracle [exPlainHit] ⟨1, 2, 3⟩ ⟨0, 0, 0, 0, 0⟩
      [⟨1, 1, 1, 1, 1⟩] [⟨2, 2, 2, 2, 2⟩] 5 (by decide)⟩

/-- Uniqueness of stored `itemId`s is preserved across any sequence of
batch-insert runs. -/
lemma applyRuns_unique (exc : Canon → Bool) :
    ∀ (runs : List (List Canon)) (S : List Canon),
      storeUnique S → storeUnique (applyRuns exc S runs) := by
  intro runs
  induction runs with
  | nil => intro S hS; simpa [applyRuns] using hS
  | cons r rs ih =>
    intro S hS
    simp only [applyRuns, List.foldl_cons]
    exact ih _ (mongoInsertLoop_unique exc r S ⟨0, 0, 0⟩ hS)

/-- C5: across any number of runs of batch inserts, no two persisted
sales records share an `itemId`; an insert attempt whose `itemId` is
already stored is rejected — the store is unchanged by it and only the
`duplicates` counter of the result moves — and the previously stored
record for that id is never overwritten or modified. -/
theorem claim_C5 (exc : Canon → Bool) :
    (∀ (S : List Canon) (runs : List (List Canon)), storeUnique S →
        storeUnique (applyRuns exc S runs))
    ∧ (∀ (S L : List Canon) (c : Canon) (id : String),
        c.hit.itemId = some id → storeHasId S id = true →
        mongoInsertBatch exc S (c :: L)
          = ((mongoInsertBatch exc S L).1,
             ⟨(mongoInsertBatch exc S L).2.inserted,
              (mongoInsertBatch exc S L).2.duplicates + 1,
              (mongoInsertBatch exc S L).2.errors⟩))
    ∧ (∀ (S L : List Canon) (id : String), storeHasId S id = true →
        findById (mongoInsertBatch exc S L).1 id = findById S id) := by
  refine ⟨fun S runs hS => applyRuns_unique exc runs S hS, ?_, ?_⟩
  · intro S L c id hid hin
    show mongoInsertLoop exc S (c :: L) ⟨0, 0, 0⟩ = _
    simp only [mongoInsertLoop, hid]
    rw [if_pos hin, mongoInsertLoop_shift]
    simp only [mongoInsertBatch, Prod.mk.injEq, true_and]
    generalize (mongoInsertLoop exc S L ⟨0, 0, 0⟩).2 = r
    obtain ⟨i, d, e⟩ := r
    simp only [InsertResult.add_mk, InsertResult.mk.injEq]
    omega
  · intro S L id hin
    exact mongoInsertBatch_findById exc S L id hin

theorem claim_C5_witness :
    (storeUnique [exCanonA]
      ∧ exCanonA.hit.itemId = some "a"
      ∧ storeHasId [exCanonA] "a" = true)
      ∧ storeUnique (applyRuns (fun _ => false) [exCanonA] [[exCanonA]])
      ∧ mongoInsertBatch (fun _ => false) [exCanonA] (exCanonA :: [])
          = ((mongoInsertBatch (fun _ => false) [exCanonA] []).1,
             ⟨(mongoInsertBatch (fun _ => false) [exCanonA] []).2.inserted,
              (mongoInsertBatch (fun _ => false) [exCanonA] []).2.duplicates + 1,
              (mongoInsertBatch (fun _ => false) [exCanonA] []).2.errors⟩)
      ∧ findById (mongoInsertBatch (fun _ => false) [exCanonA] [exCanonA]).1 "a"
          = findById [exCanonA] "a" :=
  ⟨⟨by decide, by decide, by decide⟩,
   (claim_C5 (fun _ => false)).1 [exCanonA] [[exCanonA]] (by decide),
   (claim_C5 (fun _ => false)).2.1 [exCanonA] [] exCanonA "a" (by decide) (by decide),
   (claim_C5 (fun _ => false)).2.2 [exCanonA] [exCanonA] "a" (by decide)⟩

/-- C6: running the fetch-then-insert cycle twice for the same query,
with the feed unchanged and the stored count read from the store each
time, inserts nothing on the second run: either the count gate (or a
count failure) short-circuits the second fetch to the empty list, or
every candidate fetched on the second run is classified as a duplicate by
the insert.  The hypothesis matches the data model: every remote hit
carries an `itemId`. -/
theorem claim_C6 (q : String) (cnt : List Canon → Option Nat)
    (feed : List Hit) (S : List Canon)
    (hids : ∀ h ∈ feed, h.itemId.isSome) :
    ((mongoRunOnce q cnt feed (mongoRunOnce q cnt feed S).store).result.inserted = 0)
    ∧ ((mongoRunOnce q cnt feed (mongoRunOnce q cnt feed S).store).fetched = []
       ∨ (mongoRunOnce q cnt feed (mongoRunOnce q cnt feed S).store).result.duplicates
           = (mongoRunOnce q cnt feed (mongoRunOnce q cnt feed S).store).fetched.length) := by
  cases h₁ : cnt S with
  | none =>
    have hrun1 : mongoRunOnce q cnt feed S = ⟨[], ⟨0, 0, 0⟩, S⟩ := by
      simp [mongoRunOnce, h₁, fetchAllData]
    rw [hrun1]
    dsimp only
    rw [hrun1]
    exact ⟨rfl, Or.inl rfl⟩
  | some c₁ =>
    by_cases hge₁ : feed.length ≤ c₁
    · have hres1 : (fetchAllData q feed (cnt S)).1 = [] := by
        rw [h₁, fetchAllData_gate q feed c₁ hge₁]
      have hrun1 : mongoRunOnce q cnt feed S = ⟨[], ⟨0, 0, 0⟩, S⟩ := by
        simp only [mongoRunOnce]
        rw [hres1]
        simp
      rw [hrun1]
      dsimp only
      rw [hrun1]
      exact ⟨rfl, Or.inl rfl⟩
    · push_neg at hge₁
      set res₁ := (fetchAllData q feed (some c₁)).1 with hres₁def
      have hne₁ : res₁ ≠ [] := fetchAllData_ne_nil q feed c₁ hge₁
      have hfalse : ¬ (res₁.isEmpty = true) := by
        rw [isEmpty_false_of_ne_nil hne₁]
        simp
      have hrun1 : mongoRunOnce q cnt feed S
          = ⟨res₁, (mongoInsertBatch (fun _ => false) S res₁).2,
             (mongoInsertBatch (fun _ => false) S res₁).1⟩ := by
        simp only [mongoRunOnce, h₁]
        rw [← hres₁def, if_neg hfalse]
      have hpres : ∀ cn ∈ res₁, ∀ id, cn.hit.itemId = some id →
          storeHasId (mongoInsertBatch (fun _ => false) S res₁).1 id = true := by
        intro cn hcn id hid
        exact mongoInsertLoop_ids_present (fun _ => false) (fun _ => rfl)
          res₁ S ⟨0, 0, 0⟩ cn id hcn hid
      rw [hrun1]
      dsimp only
      cases h₂ : cnt (mongoInsertBatch (fun _ => false) S res₁).1 with
      | none =>
        have hrun2 : mongoRunOnce q cnt feed (mongoInsertBatch (fun _ => false) S res₁).1
            = ⟨[], ⟨0, 0, 0⟩, (mongoInsertBatch (fun _ => false) S res₁).1⟩ := by
          simp [mongoRunOnce, h₂, fetchAllData]
        rw [hrun2]
        exact ⟨rfl, Or.inl rfl⟩
      | some c₂ =>
        by_cases hge₂ : feed.length ≤ c₂
        · have hres2 : (fetchAllData q feed (cnt (mongoInsertBatch (fun _ => false) S res₁).1)).1
              = [] := by
            rw [h₂, fetchAllData_gate q feed c₂ hge₂]
          have hrun2 : mongoRunOnce q cnt feed (mongoInsertBatch (fun _ => false) S res₁).1
              = ⟨[], ⟨0, 0, 0⟩, (mongoInsertBatch (fun _ => false) S res₁).1⟩ := by
            simp only [mongoRunOnce]
            rw [hres2]
            simp
          rw [hrun2]
          exact ⟨rfl, Or.inl rfl⟩
        · push_neg at hge₂
          have hsame : (fetchAllData q feed (some c₂)).1 = res₁ := by
            rw [hres₁def]
            exact congrArg (fun p => p.1)
              (fetchAllData_count_irrel q feed c₂ c₁ hge₂ hge₁)
          have hall : ∀ cn ∈ res₁, ∃ id, cn.hit.itemId = some id ∧
              storeHasId (mongoInsertBatch (fun _ => false) S res₁).1 id = true := by
            intro cn hcn
            have hmem : cn.hit ∈ feed := by
              apply fetchAllData_mem_feed q feed (some c₁) cn
              rw [← hres₁def]
              exact hcn
            obtain ⟨id, hid⟩ := Option.isSome_iff_exists.1 (hids cn.hit hmem)
            exact ⟨id, hid, hpres cn hcn id hid⟩
          have hins : mongoInsertBatch (fun _ => false)
              (mongoInsertBatch (fun _ => false) S res₁).1 res₁
              = ((mongoInsertBatch (fun _ => false) S res₁).1, ⟨0, res₁.length, 0⟩) := by
            show mongoInsertLoop (fun _ => false) _ res₁ ⟨0, 0, 0⟩ = _
            rw [mongoInsertLoop_all_dups (fun _ => false) res₁ _ ⟨0, 0, 0⟩ hall]
            simp
          have hrun2 : mongoRunOnce q cnt feed (mongoInsertBatch (fun _ => false) S res₁).1
              = ⟨res₁, ⟨0, res₁.length, 0⟩, (mongoInsertBatch (fun _ => false) S res₁).1⟩ := by
            simp only [mongoRunOnce, h₂]
            rw [hsame, if_neg hfalse, hins]
          rw [hrun2]
          exact ⟨rfl, Or.inr rfl⟩

theorem claim_C6_witness :
    (∀ h ∈ [exKnownHit], h.itemId.isSome)
      ∧ ((mongoRunOnce "q" (fun s => some s.length) [exKnownHit]
          (mongoRunOnce "q" (fun s => some s.length) [exKnownHit] []).store).result.inserted = 0)
      ∧ ((mongoRunOnce "q" (fun s => some s.length) [exKnownHit]
          (mongoRunOnce "q" (fun s => some s.length) [exKnownHit] []).store).fetched = []
        ∨ (mongoRunOnce "q" (fun s => some s.length) [exKnownHit]
            (mongoRunOnce "q" (fun s => some s.length) [exKnownHit] []).store).result.duplicates
          = (mongoRunOnce "q" (fun s => some s.length) [exKnownHit]
              (mongoRunOnce "q" (fun s => some s.length) [exKnownHit] []).store).fetched.length) :=
  ⟨by decide,
   (claim_C6 "q" (fun s => some s.length) [exKnownHit] [] (by decide)).1,
   (claim_C6 "q" (fun s => some s.length) [exKnownHit] [] (by decide)).2⟩

/-- C7: `insert_batch` returns an `{inserted, duplicates, errors}` triple
in which a duplicate-key insert is counted as a duplicate and never as an
error, and each record attempt is independent: processing a concatenated
batch equals processing its parts in sequence with the counters adding
up, and a failing record (missing `itemId`, or an insert exception)
contributes one error and leaves the store untouched without stopping the
rest of the batch.  Stated for both the MongoDB and the SQL handler. -/
theorem claim_C7 (exc : Canon → Bool) :
    (∀ (S xs ys : List Canon),
        mongoInsertBatch exc S (xs ++ ys)
          = ((mongoInsertBatch exc (mongoInsertBatch exc S xs).1 ys).1,
              (mongoInsertBatch exc S xs).2
                + (mongoInsertBatch exc (mongoInsertBatch exc S xs).1 ys).2))
    ∧ (∀ (S : List Canon) (c : Canon) (id : String), c.hit.itemId = some id →
        storeHasId S id = true → mongoInsertBatch exc S [c] = (S, ⟨0, 1, 0⟩))
    ∧ (∀ (S : List Canon) (c : Canon) (L : List Canon), c.hit.itemId = none →
        mongoInsertBatch exc S (c :: L)
          = ((mongoInsertBatch exc S L).1,
              (⟨0, 0, 1⟩ : InsertResult) + (mongoInsertBatch exc S L).2))
    ∧ (∀ (S : List Canon) (c : Canon) (L : List Canon) (id : String),
        c.hit.itemId = some id → storeHasId S id = false → exc c = true →
        mongoInsertBatch exc S (c :: L)
          = ((mongoInsertBatch exc S L).1,
              (⟨0, 0, 1⟩ : InsertResult) + (mongoInsertBatch exc S L).2))
    ∧ (∀ (S xs ys : List Canon),
        sqlInsertBatch exc S (xs ++ ys)
          = ((sqlInsertBatch exc (sqlInsertBatch exc S xs).1 ys).1,
              (sqlInsertBatch exc S xs).2
                + (sqlInsertBatch exc (sqlInsertBatch exc S xs).1 ys).2))
    ∧ (∀ (S : List Canon) (c : Canon) (id : String), c.hit.itemId = some id →
        id ≠ "" → exc c = false → storeHasId S id = true →
        sqlInsertBatch exc S [c] = (S, ⟨0, 1, 0⟩)) := by
  refine ⟨mongoInsertBatch_append exc, ?_, ?_, ?_, sqlInsertBatch_append exc, ?_⟩
  · intro S c id hid hin
    simp [mongoInsertBatch, mongoInsertLoop, hid, hin]
  · intro S c L hid
    show mongoInsertLoop exc S (c :: L) ⟨0, 0, 0⟩ = _
    simp only [mongoInsertLoop, hid]
    rw [mongoInsertLoop_shift]
  · intro S c L id hid hfresh hexc
    show mongoInsertLoop exc S (c :: L) ⟨0, 0, 0⟩ = _
    simp only [mongoInsertLoop, hid, hfresh]
    rw [if_neg (by simp : ¬ (false = true)), if_pos hexc, mongoInsertLoop_shift]
  · intro S c id hid hz hexc hin
    simp [sqlInsertBatch, sqlInsertLoop, hid, hz, hexc, hin]

theorem claim_C7_witness :
    (exCanonA.hit.itemId = some "a" ∧ storeHasId [exCanonA] "a" = true)
      ∧ mongoInsertBatch (fun _ => false) [exCanonA] ([exCanonA] ++ [exCanonA])
          = ((mongoInsertBatch (fun _ => false)
                (mongoInsertBatch (fun _ => false) [exCanonA] [exCanonA]).1 [exCanonA]).1,
              (mongoInsertBatch (fun _ => false) [exCanonA] [exCanonA]).2
                + (mongoInsertBatch (fun _ => false)
                    (mongoInsertBatch (fun _ => false) [exCanonA] [exCanonA]).1 [exCanonA]).2)
      ∧ mongoInsertBatch (fun _ => false) [exCanonA] [exCanonA] = ([exCanonA], ⟨0, 1, 0⟩)
      ∧ mongoInsertBatch (fun _ => false) [] (⟨exPlainHit, "", none, false, none⟩ :: [])
          = ((mongoInsertBatch (fun _ => false) [] []).1,
              (⟨0, 0, 1⟩ : InsertResult) + (mongoInsertBatch (fun _ => false) [] []).2)
      ∧ mongoInsertBatch (fun _ => true) [] (exCanonA :: [])
          = ((mongoInsertBatch (fun _ => true) [] []).1,
              (⟨0, 0, 1⟩ : InsertResult) + (mongoInsertBatch (fun _ => true) [] []).2)
      ∧ sqlInsertBatch (fun _ => false) [exCanonA] [exCanonA] = ([exCanonA], ⟨0, 1, 0⟩) :=
  ⟨⟨by decide, by decide⟩,
   (claim_C7 (fun _ => false)).1 [exCanonA] [exCanonA] [exCanonA],
   (claim_C7 (fun _ => false)).2.1 [exCanonA] exCanonA "a" (by decide) (by decide),
   (claim_C7 (fun _ => false)).2.2.1 [] ⟨exPlainHit, "", none, false, none⟩ [] (by decide),
   (claim_C7 (fun _ => true)).2.2.2.1 [] exCanonA [] "a" (by decide) (by decide) (by decide),
   (claim_C7 (fun _ => false)).2.2.2.2.2 [exCanonA] exCanonA "a"
     (by decide) (by decide) (by decide) (by decide)⟩

/-- C8: with the per-task statistics updates performed atomically under
the mutual-exclusion lock, any interleaving of `M` concurrently executing
query tasks is some permutation of the individual locked updates, so for
every worker-pool size `W < M` and every schedule the final aggregate
counters equal the componentwise arithmetic sums of the per-query
contributions — independent of `W` and of the interleaving. -/
theorem claim_C8 (W M : Nat) (ds sched : List BatchStats) (s0 : BatchStats)
    (hW : W < M) (hM : ds.length = M) (hperm : sched.Perm ds) :
    sched.foldl applyContrib s0
      = ⟨s0.queriesProcessed + (ds.map (fun d => d.queriesProcessed)).sum,
         s0.totalRecords + (ds.map (fun d => d.totalRecords)).sum,
         s0.totalInserted + (ds.map (fun d => d.totalInserted)).sum,
         s0.totalDuplicates + (ds.map (fun d => d.totalDuplicates)).sum,
         s0.totalErrors + (ds.map (fun d => d.totalErrors)).sum⟩ := by
  rw [foldl_applyContrib_totals]
  rw [(hperm.map (fun d => d.queriesProcessed)).sum_eq,
    (hperm.map (fun d => d.totalRecords)).sum_eq,
    (hperm.map (fun d => d.totalInserted)).sum_eq,
    (hperm.map (fun d => d.totalDuplicates)).sum_eq,
    (hperm.map (fun d => d.totalErrors)).sum_eq]

theorem claim_C8_witness :
    (1 < 2 ∧ ([(⟨1, 2, 3, 4, 5⟩ : BatchStats), ⟨6, 7, 8, 9, 10⟩] : List BatchStats).length = 2
      ∧ ([(⟨6, 7, 8, 9, 10⟩ : BatchStats), ⟨1, 2, 3, 4, 5⟩] : List BatchStats).Perm
          [⟨1, 2, 3, 4, 5⟩, ⟨6, 7, 8, 9, 10⟩])
      ∧ ([(⟨6, 7, 8, 9, 10⟩ : BatchStats), ⟨1, 2, 3, 4, 5⟩] : List BatchStats).foldl
          applyContrib ⟨0, 0, 0, 0, 0⟩
        = ⟨0 + (([(⟨1, 2, 3, 4, 5⟩ : BatchStats), ⟨6, 7, 8, 9, 10⟩]).map
              (fun d => d.queriesProcessed)).sum,
           0 + (([(⟨1, 2, 3, 4, 5⟩ : BatchStats), ⟨6, 7, 8, 9, 10⟩]).map
              (fun d => d.totalRecords)).sum,
           0 + (([(⟨1, 2, 3, 4, 5⟩ : BatchStats), ⟨6, 7, 8, 9, 10⟩]).map
              (fun d => d.totalInserted)).sum,
           0 + (([(⟨1, 2, 3, 4, 5⟩ : BatchStats), ⟨6, 7, 8, 9, 10⟩]).map
              (fun d => d.totalDuplicates)).sum,
           0 + (([(⟨1, 2, 3, 4, 5⟩ : BatchStats), ⟨6, 7, 8, 9, 10⟩]).map
              (fun d => d.totalErrors)).sum⟩ :=
  ⟨⟨by decide, by decide, by decide⟩,
   claim_C8 1 2 [⟨1, 2, 3, 4, 5⟩, ⟨6, 7, 8, 9, 10⟩] [⟨6, 7, 8, 9, 10⟩, ⟨1, 2, 3, 4, 5⟩]
     ⟨0, 0, 0, 0, 0⟩ (by decide) (by decide) (by decide)⟩

/-- C9: both normalizers set the derived `Verified` flag to true exactly
when the hit carries a `cardId` key whose value is a non-empty string
(neither absent, nor `null`, nor the empty string), and when the hit
carries a `date` field they set `date_normal` to the part of that
ISO-8601 string before the `'T'` separator. -/
theorem claim_C9 (url q : String) (h : Hit) :
    ((normalizeDaily url h).verified = true
      ↔ ∃ s, h.cardId = some (JVal.str s) ∧ s ≠ "")
    ∧ ((normalizeMain url q h).verified = true
      ↔ ∃ s, h.cardId = some (JVal.str s) ∧ s ≠ "")
    ∧ (∀ (a b : List Char), 'T' ∉ a → h.date = some (String.mk (a ++ 'T' :: b)) →
        (normalizeDaily url h).dateNormal = some (String.mk a))
    ∧ (∀ (a b : List Char), 'T' ∉ a → h.date = some (String.mk (a ++ 'T' :: b)) →
        (normalizeMain url q h).dateNormal = some (String.mk a)) := by
  have hv : hitVerified h = true ↔ ∃ s, h.cardId = some (JVal.str s) ∧ s ≠ "" := by
    unfold hitVerified
    cases hc : h.cardId with
    | none => simp
    | some v =>
      cases v with
      | null => simp
      | str s => simp
  have hd : ∀ (a b : List Char), 'T' ∉ a → h.date = some (String.mk (a ++ 'T' :: b)) →
      hitDateNormal h = some (String.mk a) := by
    intro a b hT hdate
    rw [hitDateNormal, hdate, Option.map_some', pySplitHeadT_before a b hT]
  exact ⟨hv, hv, hd, hd⟩

theorem claim_C9_witness :
    ('T' ∉ ['5'])
      ∧ exDateHit.date = some (String.mk (['5'] ++ 'T' :: ['6']))
      ∧ ((normalizeDaily "u" exDateHit).verified = true
          ↔ ∃ s, exDateHit.cardId = some (JVal.str s) ∧ s ≠ "")
      ∧ (normalizeDaily "u" exDateHit).dateNormal = some (String.mk ['5']) :=
  ⟨by decide, rfl, (claim_C9 "u" "q" exDateHit).1,
   (claim_C9 "u" "q" exDateHit).2.2.1 ['5'] ['6'] (by decide) rfl⟩

lemma hitFoundExisting_err (h : Hit) :
    hitFoundExisting (fun _ => Except.error ()) h = false := by
  unfold hitFoundExisting checkIfItemExists
  cases h.itemId with
  | none => rfl
  | some id => simp

/-- C10: the per-item existence check returns `false` when the store
lookup raises, rather than propagating an error; consequently, in
daily-incremental mode a store failure during the walk makes
already-persisted hits look new — the walk never stops at the boundary
and collects exactly what a full-reconciliation walk would (a nonempty
list here, although every hit is already stored) — and the re-collected
records are only filtered out at insert time, where all of them are
counted as duplicates and the store is left unchanged. -/
theorem claim_C10 (q : String) (feed : List Hit) (S : List Canon) (c : Nat)
    (hc : c < feed.length)
    (hstored : ∀ h ∈ feed, ∃ id, h.itemId = some id ∧ storeHasId S id = true) :
    (∀ id, checkIfItemExists (fun _ => Except.error ()) id = false)
    ∧ ((fetchNewData q (fun _ => Except.error ()) feed (some c)).1).map (fun cn => cn.hit)
        = ((fetchAllData q feed (some c)).1).map (fun cn => cn.hit)
    ∧ (fetchNewData q (fun _ => Except.error ()) feed (some c)).1 ≠ []
    ∧ mongoInsertBatch (fun _ => false) S
        (fetchNewData q (fun _ => Except.error ()) feed (some c)).1
      = (S, ⟨0, ((fetchNewData q (fun _ => Except.error ()) feed (some c)).1).length, 0⟩) := by
  have hagree := fetchNewData_agrees_fetchAllData q (fun _ => Except.error ()) feed (some c)
    (fun h => hitFoundExisting_err h)
  have hfullne := fetchAllData_ne_nil q feed c hc
  have hne : (fetchNewData q (fun _ => Except.error ()) feed (some c)).1 ≠ [] := by
    intro h0
    apply hfullne
    have hlen := congrArg List.length hagree
    rw [h0] at hlen
    simp only [List.length_map, List.length_nil] at hlen
    exact List.length_eq_zero.1 hlen.symm
  have hall : ∀ cn ∈ (fetchNewData q (fun _ => Except.error ()) feed (some c)).1,
      ∃ id, cn.hit.itemId = some id ∧ storeHasId S id = true := by
    intro cn hcn
    have h1 : cn.hit ∈ ((fetchAllData q feed (some c)).1).map (fun cn => cn.hit) := by
      rw [← hagree]
      exact List.mem_map_of_mem _ hcn
    obtain ⟨cn', hcn', hh⟩ := List.mem_map.1 h1
    have hmem : cn.hit ∈ feed := by
      rw [← hh]
      exact fetchAllData_mem_feed q feed (some c) cn' hcn'
    exact hstored cn.hit hmem
  refine ⟨fun id => rfl, hagree, hne, ?_⟩
  show mongoInsertLoop (fun _ => false) S _ ⟨0, 0, 0⟩ = _
  rw [mongoInsertLoop_all_dups (fun _ => false) _ S ⟨0, 0, 0⟩ hall]
  simp

theorem claim_C10_witness :
    (0 < [exKnownHit].length
      ∧ (∀ h ∈ [exKnownHit], ∃ id, h.itemId = some id ∧ storeHasId [exCanonA] id = true))
      ∧ (∀ id, checkIfItemExists (fun _ => Except.error ()) id = false)
      ∧ ((fetchNewData "q" (fun _ => Except.error ()) [exKnownHit] (some 0)).1).map
            (fun cn => cn.hit)
          = ((fetchAllData "q" [exKnownHit] (some 0)).1).map (fun cn => cn.hit)
      ∧ (fetchNewData "q" (fun _ => Except.error ()) [exKnownHit] (some 0)).1 ≠ []
      ∧ mongoInsertBatch (fun _ => false) [exCanonA]
          (fetchNewData "q" (fun _ => Except.error ()) [exKnownHit] (some 0)).1
        = ([exCanonA],
           ⟨0, ((fetchNewData "q" (fun _ => Except.error ()) [exKnownHit] (some 0)).1).length,
            0⟩) :=
  ⟨⟨by decide, by decide⟩,
   (claim_C10 "q" [exKnownHit] [exCanonA] 0 (by decide) (by decide)).1,
   (claim_C10 "q" [exKnownHit] [exCanonA] 0 (by decide) (by decide)).2.1,
   (claim_C10 "q" [exKnownHit] [exCanonA] 0 (by decide) (by decide)).2.2.1,
   (claim_C10 "q" [exKnownHit] [exCanonA] 0 (by decide) (by decide)).2.2.2⟩
